import Mathlib

/-!
Verification of the aggregation and flow-graph construction logic of
`monthly-report.py` (Firefly III monthly e-mail report generator).

The script's core is shallowly embedded below:
* Python `float` amounts are modelled as exact rationals `ℚ`;
* CPython `dict`s (which preserve insertion order, and on assignment keep
  an existing key in place while overwriting its value) are modelled as
  insertion-ordered association lists with `dictInsert` / `dictGet?`;
* raw JSON amounts, which the script tests for Python truthiness before
  parsing with `float`, are modelled by `RawAmount` (a JSON string is
  truthy whenever present, a Python number is truthy iff non-zero);
* the CPython `set` iterated at monthly-report.py:465/517 has no
  specified iteration order, so the flow-graph builder takes that order as
  an explicit argument constrained by `ValidCatOrder`.
-/

namespace MonthlyReport

/-- Python `x or default` for an optional string: `None` and `""` are
falsy, so both fall through to the default. -/
def pyOr (o : Option String) (d : String) : String :=
  match o with
  | none => d
  | some s => if s = "" then d else s

/-- A raw JSON amount as the script receives it.  The Firefly III API
encodes monetary amounts as JSON strings (e.g. `"0.00"`), while the
script's own defaulting paths produce the Python number `0`.  Python
truthiness (used at monthly-report.py:188 `if budgetLimit or budgetSpent`)
treats any non-empty string as truthy regardless of its numeric value, and
a number as truthy iff it is non-zero.  `val` is the numeric value that
`float(·)` produces; a `str` amount is implicitly a non-empty numeric
string (an empty or non-numeric string would crash `float` instead). -/
inductive RawAmount where
  | str (val : ℚ)
  | num (val : ℚ)
deriving DecidableEq

/-- The value `float(·)` parses from the raw amount. -/
def RawAmount.toQ : RawAmount → ℚ
  | .str v => v
  | .num v => v

/-- Python truthiness of the raw amount. -/
def RawAmount.truthy : RawAmount → Bool
  | .str _ => true
  | .num v => decide (v ≠ 0)

/-- Insertion-ordered association list modelling a CPython `dict`:
assignment overwrites the value of an existing key in place (keeping the
key's original position) and otherwise appends the new key at the end. -/
def dictInsert {β : Type} (m : List (String × β)) (k : String) (v : β) :
    List (String × β) :=
  match m with
  | [] => [(k, v)]
  | (k', v') :: rest =>
    if k' = k then (k', v) :: rest else (k', v') :: dictInsert rest k v

/-- `m.get(k)` / `m[k]` lookup on the dict model. -/
def dictGet? {β : Type} (m : List (String × β)) (k : String) : Option β :=
  match m with
  | [] => none
  | (k', v) :: rest => if k' = k then some v else dictGet? rest k

/-- The keys of the dict, in insertion order. -/
def dictKeys {β : Type} (m : List (String × β)) : List String := m.map Prod.fst

/-! ## Income transactions and the revenue→category map -/

/-- One leg of a deposit-type transaction as consumed at
monthly-report.py:431-441: `amount` is `float(t["amount"])` (a required
field), `source_name` is read with `t.get("source_name", "Other Income")`
and `category_name` with `t.get("category_name") or ""`. -/
structure IncomeTx where
  amount : ℚ
  source_name : Option String
  category_name : Option String
deriving DecidableEq

/-- `t.get("source_name", "Other Income")`: the default applies only when
the key is absent (an empty string present in the data is kept). -/
def sourceOf (t : IncomeTx) : String := t.source_name.getD ("Other Income")

/-- `t.get("category_name") or ""`. -/
def categoryOf (t : IncomeTx) : String := pyOr t.category_name ("")

/-- The inner `{category: amount}` dict. -/
abbrev CatAmounts := List (String × ℚ)

/-- `revenue_to_category`: `{revenue_account: {category: amount}}`. -/
abbrev RevMap := List (String × CatAmounts)

/-- The accumulation step shared by both nested-dict builders:
`m.setdefault(src, {}); m[src][cat] = m[src].get(cat, 0) + a`. -/
def dictBump (m : RevMap) (src cat : String) (a : ℚ) : RevMap :=
  let inner := (dictGet? m src).getD []
  dictInsert m src (dictInsert inner cat (((dictGet? inner cat).getD 0) + a))

/-- monthly-report.py:431-441: accumulate `abs(float(t["amount"]))` into
`revenue_to_category[source_name][category]`. -/
def addIncomeTx (m : RevMap) (t : IncomeTx) : RevMap :=
  dictBump m (sourceOf t) (categoryOf t) |t.amount|

/-- The `revenue_to_category` map built from the (flattened, in order)
income transaction legs. -/
def revenueToCategory (txs : List IncomeTx) : RevMap :=
  txs.foldl addIncomeTx []

/-! ## Budget summaries -/

/-- The `auto_budget_amount` attribute of a budget response
(monthly-report.py:164): the key can be missing entirely (`KeyError`,
caught at line 181 and defaulting the limit to 0), can be JSON `null`
(Python `None`, falsy, falling back to the budget-limit records), or can
hold an amount. -/
inductive AutoBudgetField where
  | missing
  | null
  | val (a : RawAmount)
deriving DecidableEq

/-- A raw budget record together with the per-period data fetched for it
(monthly-report.py:151-186): `limits` holds the amounts of the
budget-limit records returned for the period (`limits["data"]`, in order)
and `spent` is `spent[0]["sum"]` when present (`none` models the
`KeyError`/`IndexError` paths that default it to 0). -/
structure RawBudget where
  id : String
  name : String
  autoBudget : AutoBudgetField
  limits : List RawAmount
  spent : Option RawAmount
deriving DecidableEq

/-- monthly-report.py:163-182: prefer a truthy `auto_budget_amount`,
otherwise the first budget-limit record's amount, otherwise the number 0. -/
def budgetLimitOf (b : RawBudget) : RawAmount :=
  match b.autoBudget with
  | .missing => .num 0
  | .null => (match b.limits with | [] => .num 0 | l :: _ => l)
  | .val a =>
    if a.truthy then a else (match b.limits with | [] => .num 0 | l :: _ => l)

/-- monthly-report.py:183-186. -/
def spentOf (b : RawBudget) : RawAmount := b.spent.getD (.num 0)

/-- An entry of `budgetTotals` (monthly-report.py:194-204): the raw limit
and spent values are stored as received, `remaining` as a parsed number. -/
structure BudgetSummary where
  id : String
  name : String
  limit : RawAmount
  spent : RawAmount
  remaining : ℚ
deriving DecidableEq

/-- `float(budget["spent"])` as used by the graph builder. -/
def BudgetSummary.spentQ (b : BudgetSummary) : ℚ := b.spent.toQ

/-- monthly-report.py:188-204: a budget is appended to `budgetTotals` iff
`budgetLimit or budgetSpent` is truthy;
`remaining = float(limit) + float(spent)`. -/
def summarizeBudget1 (b : RawBudget) : Option BudgetSummary :=
  if (budgetLimitOf b).truthy || (spentOf b).truthy then
    some { id := b.id, name := b.name, limit := budgetLimitOf b,
           spent := spentOf b,
           remaining := (budgetLimitOf b).toQ + (spentOf b).toQ }
  else none

/-- The `budgetTotals` list produced by the per-budget loop. -/
def summarizeBudgets (bs : List RawBudget) : List BudgetSummary :=
  bs.filterMap summarizeBudget1

/-! ## Category summaries and their sort -/

/-- An entry of `totals` (monthly-report.py:135-142): `total` is
`float(earned) + float(spent)` (the net movement, spending is negative). -/
structure CategorySummary where
  name : String
  spent : ℚ
  earned : ℚ
  total : ℚ
deriving DecidableEq

/-- The sort key of monthly-report.py:258:
`(float(x["total"]) == 0, -abs(float(x["total"])))`. -/
def catKey (c : CategorySummary) : Bool × ℚ := (decide (c.total = 0), -|c.total|)

/-- `≤` on sort keys: lexicographic on `Bool × ℚ` with `false < true`,
matching Python tuple comparison on `(bool, float)`. -/
def catLE (a b : CategorySummary) : Bool :=
  (!(catKey a).1 && (catKey b).1) ||
    ((catKey a).1 == (catKey b).1 && decide ((catKey a).2 ≤ (catKey b).2))

/-- monthly-report.py:258: `totals.sort(key=...)` — CPython `list.sort` is
a stable sort by the key, modelled as a stable merge sort under `catLE`. -/
def sortCategories (l : List CategorySummary) : List CategorySummary :=
  l.mergeSort catLE

/-! ## Currency discovery -/

/-- The literal pattern prefix of `re.match(r"spent-in-.*", key)`. -/
def spentInPat : List Char := ("spent-in-").data

/-- `re.match(r"spent-in-.*", key)` succeeds iff `key` starts with the
literal "spent-in-" (the `.*` tail always matches). -/
def matchesSpentIn (key : String) : Bool := spentInPat.isPrefixOf key.data

/-- `key.replace("spent-in-", "")`: delete every left-to-right,
non-overlapping occurrence of "spent-in-" (Python `str.replace` with an
empty replacement).  The recursion is driven by an explicit fuel counter
(one unit per character); `stripSpentIn` supplies fuel equal to the string
length, and every recursive call drops at least one character per unit of
fuel, so the fuel-exhausted base case is never reached. -/
def stripSpentInFuel : ℕ → List Char → List Char
  | _, [] => []
  | 0, l => l
  | fuel + 1, c :: rest =>
    if spentInPat.isPrefixOf (c :: rest) then stripSpentInFuel fuel (rest.drop 8)
    else c :: stripSpentInFuel fuel rest

/-- String wrapper for `stripSpentInFuel`. -/
def stripSpentIn (key : String) : String :=
  ⟨stripSpentInFuel key.data.length key.data⟩

/-- monthly-report.py:231-233: iterate the month-summary response keys in
order; every key matching the pattern overwrites `currencyName` (the loop
has no `break`).  Returns `none` when no key matches (in the script
`currencyName` would then be unbound). -/
def currencyNameOf (ks : List String) : Option String :=
  ks.foldl
    (fun acc key => if matchesSpentIn key then some (stripSpentIn key) else acc)
    none

/-! ## Per-budget expense transactions -/

/-- One leg of a budget transaction (monthly-report.py:557-572): `amount`
is `none` when the field is missing or unparsable (both default to 0 via
`t.get("amount", 0)` and the `try/except` at 559-562); `category_name`
is read with `t.get("category_name") or "Uncategorized"`. -/
structure BudgetTx where
  amount : Option ℚ
  category_name : Option String
deriving DecidableEq

/-- monthly-report.py:558-572: only legs with a negative amount are
accumulated (by absolute value) into `budget_category_map[budget][cat]`. -/
def addBudgetTx (bname : String) (m : RevMap) (t : BudgetTx) : RevMap :=
  let amt : ℚ := t.amount.getD 0
  if 0 ≤ amt then m
  else dictBump m bname (pyOr t.category_name ("Uncategorized")) |amt|

/-- monthly-report.py:543-572: per-budget transaction fetch.  `fetch`
returning `none` models a failing `.json()` call for that budget, which is
skipped (`except Exception: continue`) without aborting the loop. -/
def buildBudgetCategoryMap (budgets : List BudgetSummary)
    (fetch : String → Option (List BudgetTx)) : RevMap :=
  budgets.foldl
    (fun m b =>
      match fetch b.id with
      | none => m
      | some txs => txs.foldl (addBudgetTx b.name) m)
    []

/-! ## The Sankey flow graph -/

structure SankeyNode where
  id : String
  label : String
deriving DecidableEq

structure SankeyLink where
  source : ℕ
  target : ℕ
  value : ℚ
deriving DecidableEq

structure SankeyGraph where
  nodes : List SankeyNode
  links : List SankeyLink
deriving DecidableEq

/-- All categories appearing in inner maps: the membership of the Python
set `all_income_categories` (monthly-report.py:461-463). -/
def unionCats (m : RevMap) : List String := m.flatMap (fun p => dictKeys p.2)

/-- CPython iterates a `set` in hash-table order, which is neither
insertion order nor otherwise specified (string hashing is randomized per
process).  The graph builder therefore takes the iteration order of
`all_income_categories` as an explicit argument; an order is admissible
iff it enumerates each distinct observed category exactly once. -/
def ValidCatOrder (m : RevMap) (order : List String) : Prop :=
  order.Nodup ∧ (∀ c ∈ order, c ∈ unionCats m) ∧ (∀ c ∈ unionCats m, c ∈ order)

instance (m : RevMap) (order : List String) : Decidable (ValidCatOrder m order) := by
  unfold ValidCatOrder
  exact inferInstance

/-- The `nodeIndex` bookkeeping: for each name in turn,
`indices[name] = nodeIndex; nodeIndex += 1` (a CPython dict assignment, so
a repeated name keeps its first position but gets the later index). -/
def indexLoop (acc : List (String × ℕ)) (start : ℕ) : List String → List (String × ℕ)
  | [] => acc
  | k :: rest => indexLoop (dictInsert acc k start) (start + 1) rest

/-- The index dict assigned to a run of node names starting at `start`. -/
def indexDict (ks : List String) (start : ℕ) : List (String × ℕ) :=
  indexLoop [] start ks

/-- Level 1 nodes (monthly-report.py:451-457), one per key of
`revenue_to_category` in insertion order. -/
def revenueNodes (m : RevMap) : List SankeyNode :=
  m.map (fun p => ⟨"revenue_" ++ p.1, p.1⟩)

/-- Level 2 nodes (monthly-report.py:465-468), one per element of the set
iteration order. -/
def incomeCatNodes (order : List String) : List SankeyNode :=
  order.map (fun c => ⟨"income_cat_" ++ c, c⟩)

/-- Level 3 node (monthly-report.py:470-473). -/
def hubNode : SankeyNode := ⟨"income_hub", "Total Income"⟩

/-- Budgets that get a node: `float(budget["spent"]) != 0`
(monthly-report.py:477-483). -/
def graphBudgets (budgets : List BudgetSummary) : List BudgetSummary :=
  budgets.filter (fun b => decide (b.spentQ ≠ 0))

/-- Level 4 nodes. -/
def budgetNodes (budgets : List BudgetSummary) : List SankeyNode :=
  (graphBudgets budgets).map (fun b => ⟨"budget_" ++ b.name, b.name⟩)

/-- Expense categories: `float(c["total"]) < 0` (monthly-report.py:448). -/
def expenseCategories (totals : List CategorySummary) : List CategorySummary :=
  totals.filter (fun c => decide (c.total < 0))

/-- Level 5 nodes (monthly-report.py:487-490). -/
def expCatNodes (totals : List CategorySummary) : List SankeyNode :=
  (expenseCategories totals).map (fun c => ⟨"category_" ++ c.name, c.name⟩)

/-- Python `str.lower` restricted to ASCII (every name compared by the
script's collision check against the ASCII literal "savings"). -/
def lowerChar (c : Char) : Char :=
  if 'A' ≤ c ∧ c ≤ 'Z' then Char.ofNat (c.toNat + 32) else c

/-- ASCII lower-casing of a string. -/
def pyLower (s : String) : String := ⟨s.data.map lowerChar⟩

/-- monthly-report.py:495-500: the surplus node is labeled "Savings"
unless some budget's lower-cased name is "savings" (the check consults
`budgetTotals` names only). -/
def savingsLabel (budgets : List BudgetSummary) : String :=
  if budgets.any (fun b => pyLower b.name == "savings") then "Net Savings"
  else "Savings"

/-- monthly-report.py:492-503: the savings node exists iff
`netChangeThisMonth > 0`. -/
def savingsNodes (budgets : List BudgetSummary) (net : ℚ) : List SankeyNode :=
  if 0 < net then [⟨"net_savings", savingsLabel budgets⟩] else []

/-- monthly-report.py:506-514: one link per (revenue account, category)
pair of `revenue_to_category`, with the accumulated value and no
positivity check. -/
def revCatLinks (m : RevMap) (order : List String) : List SankeyLink :=
  m.flatMap (fun p =>
    p.2.map (fun q =>
      ⟨(dictGet? (indexDict (dictKeys m) 0) p.1).getD 0,
       (dictGet? (indexDict order m.length) q.1).getD 0,
       q.2⟩))

/-- `total_for_cat` at monthly-report.py:518-520. -/
def catTotal (m : RevMap) (c : String) : ℚ :=
  (m.map (fun p => (dictGet? p.2 c).getD 0)).sum

/-- monthly-report.py:517-528: category→hub links, suppressed unless the
summed value is > 0. -/
def catHubLinks (m : RevMap) (order : List String) : List SankeyLink :=
  order.filterMap (fun c =>
    if 0 < catTotal m c then
      some ⟨(dictGet? (indexDict order m.length) c).getD 0,
            m.length + order.length, catTotal m c⟩
    else none)

/-- `budget_indices` (monthly-report.py:476-483): built over the
non-zero-spent budgets, starting one past the hub index. -/
def budgetIdx (m : RevMap) (order : List String) (budgets : List BudgetSummary) :
    List (String × ℕ) :=
  indexDict ((graphBudgets budgets).map BudgetSummary.name)
    (m.length + order.length + 1)

/-- `category_indices` (monthly-report.py:486-490). -/
def expCatIdx (m : RevMap) (order : List String) (budgets : List BudgetSummary)
    (totals : List CategorySummary) : List (String × ℕ) :=
  indexDict ((expenseCategories totals).map CategorySummary.name)
    (m.length + order.length + 1 + (graphBudgets budgets).length)

/-- monthly-report.py:531-539: hub→budget links for non-zero-spent
budgets, weighted by `abs(float(spent))`. -/
def hubBudgetLinks (m : RevMap) (order : List String)
    (budgets : List BudgetSummary) : List SankeyLink :=
  budgets.filterMap (fun b =>
    if b.spentQ ≠ 0 then
      some ⟨m.length + order.length,
            (dictGet? (budgetIdx m order budgets) b.name).getD 0, |b.spentQ|⟩
    else none)

/-- monthly-report.py:575-586: budget→category links; a budget absent from
`budget_indices` is skipped, and a link is emitted only when the category
is a known expense-category node and the amount is positive. -/
def budgetCatLinks (m : RevMap) (order : List String)
    (budgets : List BudgetSummary) (totals : List CategorySummary)
    (fetch : String → Option (List BudgetTx)) : List SankeyLink :=
  (buildBudgetCategoryMap budgets fetch).flatMap (fun p =>
    match dictGet? (budgetIdx m order budgets) p.1 with
    | none => []
    | some bi =>
      p.2.filterMap (fun (q : String × ℚ) =>
        match dictGet? (expCatIdx m order budgets totals) q.1 with
        | none => none
        | some ci =>
          if 0 < q.2 then some (SankeyLink.mk bi ci q.2) else none))

/-- monthly-report.py:588-596: hub→savings link, present iff the savings
node is. -/
def savingsLinks (m : RevMap) (order : List String)
    (budgets : List BudgetSummary) (totals : List CategorySummary)
    (net : ℚ) : List SankeyLink :=
  if 0 < net then
    [⟨m.length + order.length,
      m.length + order.length + 1 + (graphBudgets budgets).length
        + (expenseCategories totals).length,
      net⟩]
  else []

/-- The whole Sankey construction of monthly-report.py:443-596: nodes in
layer order, then the five link families in emission order. -/
def buildSankey (txs : List IncomeTx) (order : List String)
    (budgets : List BudgetSummary) (totals : List CategorySummary)
    (net : ℚ) (fetch : String → Option (List BudgetTx)) : SankeyGraph :=
  { nodes := revenueNodes (revenueToCategory txs) ++ incomeCatNodes order
      ++ [hubNode] ++ budgetNodes budgets ++ expCatNodes totals
      ++ savingsNodes budgets net,
    links := revCatLinks (revenueToCategory txs) order
      ++ catHubLinks (revenueToCategory txs) order
      ++ hubBudgetLinks (revenueToCategory txs) order budgets
      ++ budgetCatLinks (revenueToCategory txs) order budgets totals fetch
      ++ savingsLinks (revenueToCategory txs) order budgets totals net }

/-- Distinct elements of a list in order of first occurrence (the order
the claim about income-category nodes asserts). -/
def firstSeenAux (seen : List String) : List String → List String
  | [] => []
  | x :: rest =>
    if x ∈ seen then firstSeenAux seen rest
    else x :: firstSeenAux (x :: seen) rest

/-- Distinct elements, first occurrence first. -/
def firstSeen (l : List String) : List String := firstSeenAux [] l

/-! ## Dict lemmas -/

theorem dictGet?_dictInsert_self {β : Type} (m : List (String × β)) (k : String)
    (v : β) : dictGet? (dictInsert m k v) k = some v := by
  induction m with
  | nil => simp [dictInsert, dictGet?]
  | cons p rest ih =>
    obtain ⟨k', v'⟩ := p
    by_cases h : k' = k
    · simp [dictInsert, dictGet?, h]
    · simp [dictInsert, dictGet?, h, ih]

theorem dictGet?_dictInsert_ne {β : Type} {m : List (String × β)} {k k' : String}
    (v : β) (h : k' ≠ k) : dictGet? (dictInsert m k v) k' = dictGet? m k' := by
  have hk : k ≠ k' := fun h' => h h'.symm
  induction m with
  | nil => simp [dictInsert, dictGet?, hk]
  | cons p rest ih =>
    obtain ⟨k'', v''⟩ := p
    by_cases h2 : k'' = k
    · subst h2
      simp [dictInsert, dictGet?, hk]
    · simp [dictInsert, dictGet?, h2, ih]

theorem mem_dictInsert {β : Type} {m : List (String × β)} {k : String} {v : β}
    {p : String × β} (hp : p ∈ dictInsert m k v) : p = (k, v) ∨ p ∈ m := by
  induction m with
  | nil => simpa [dictInsert] using hp
  | cons q rest ih =>
    obtain ⟨k', v'⟩ := q
    by_cases h : k' = k
    · subst h
      rcases (by simpa [dictInsert] using hp : p = (k', v) ∨ p ∈ rest) with h1 | h1
      · exact Or.inl h1
      · exact Or.inr (List.mem_cons_of_mem _ h1)
    · rcases (by simpa [dictInsert, h] using hp :
        p = (k', v') ∨ p ∈ dictInsert rest k v) with h1 | h1
      · exact Or.inr (by simp [h1])
      · rcases ih h1 with h2 | h2
        · exact Or.inl h2
        · exact Or.inr (List.mem_cons_of_mem _ h2)

theorem self_mem_dictInsert {β : Type} (m : List (String × β)) (k : String)
    (v : β) : (k, v) ∈ dictInsert m k v := by
  induction m with
  | nil => simp [dictInsert]
  | cons q rest ih =>
    obtain ⟨k', v'⟩ := q
    by_cases h : k' = k
    · subst h
      simp [dictInsert]
    · simp only [dictInsert, if_neg h]
      exact List.mem_cons_of_mem _ ih

theorem mem_dictInsert_of_ne {β : Type} {m : List (String × β)} {k : String}
    {v : β} {p : String × β} (hp : p ∈ m) (hne : p.1 ≠ k) :
    p ∈ dictInsert m k v := by
  induction m with
  | nil => simp at hp
  | cons q rest ih =>
    obtain ⟨k', v'⟩ := q
    by_cases h : k' = k
    · subst h
      rcases List.mem_cons.mp hp with h1 | h1
      · exact absurd (congrArg Prod.fst h1) hne
      · simp only [dictInsert, if_pos rfl]
        exact List.mem_cons_of_mem _ h1
    · simp only [dictInsert, if_neg h]
      rcases List.mem_cons.mp hp with h1 | h1
      · exact h1 ▸ List.mem_cons_self _ _
      · exact List.mem_cons_of_mem _ (ih h1)

theorem dictKeys_dictInsert {β : Type} (m : List (String × β)) (k : String)
    (v : β) :
    dictKeys (dictInsert m k v) =
      if k ∈ dictKeys m then dictKeys m else dictKeys m ++ [k] := by
  induction m with
  | nil => simp [dictInsert, dictKeys]
  | cons q rest ih =>
    obtain ⟨k', v'⟩ := q
    by_cases h : k' = k
    · subst h
      simp [dictInsert, dictKeys]
    · have hne : ¬ k = k' := fun h' => h h'.symm
      by_cases h2 : k ∈ dictKeys rest
      · have h3 : dictKeys (dictInsert rest k v) = dictKeys rest := by
          rw [ih, if_pos h2]
        have hmem : k ∈ dictKeys ((k', v') :: rest) := by
          simp only [dictKeys, List.map_cons, List.mem_cons]
          exact Or.inr (by simpa [dictKeys] using h2)
        rw [if_pos hmem]
        simp only [dictInsert, if_neg h, dictKeys, List.map_cons] at h3 ⊢
        rw [h3]
      · have h3 : dictKeys (dictInsert rest k v) = dictKeys rest ++ [k] := by
          rw [ih, if_neg h2]
        have hmem : k ∉ dictKeys ((k', v') :: rest) := by
          simp only [dictKeys, List.map_cons, List.mem_cons, not_or]
          exact ⟨hne, by simpa [dictKeys] using h2⟩
        rw [if_neg hmem]
        simp only [dictInsert, if_neg h, dictKeys, List.map_cons] at h3 ⊢
        rw [h3]
        rfl

theorem mem_dictKeys_dictInsert {β : Type} {m : List (String × β)} {k k' : String}
    {v : β} : k' ∈ dictKeys (dictInsert m k v) ↔ k' ∈ dictKeys m ∨ k' = k := by
  rw [dictKeys_dictInsert]
  by_cases h : k ∈ dictKeys m
  · simp only [if_pos h]
    constructor
    · exact Or.inl
    · rintro (h1 | h1)
      · exact h1
      · exact h1 ▸ h
  · simp [if_neg h]

theorem nodup_dictKeys_dictInsert {β : Type} {m : List (String × β)} {k : String}
    {v : β} (h : (dictKeys m).Nodup) : (dictKeys (dictInsert m k v)).Nodup := by
  rw [dictKeys_dictInsert]
  by_cases h2 : k ∈ dictKeys m
  · simpa [if_pos h2] using h
  · rw [if_neg h2]
    simpa [List.nodup_append] using ⟨h, fun h3 => h2 h3⟩

theorem length_dictInsert {β : Type} (m : List (String × β)) (k : String)
    (v : β) :
    (dictInsert m k v).length =
      if k ∈ dictKeys m then m.length else m.length + 1 := by
  have h1 : (dictInsert m k v).length = (dictKeys (dictInsert m k v)).length := by
    simp [dictKeys]
  have h2 : (dictKeys m).length = m.length := by simp [dictKeys]
  rw [h1, dictKeys_dictInsert]
  by_cases h : k ∈ dictKeys m
  · simp [if_pos h, h2]
  · simp [if_neg h, h2]

theorem dictGet?_eq_none_iff {β : Type} {m : List (String × β)} {k : String} :
    dictGet? m k = none ↔ k ∉ dictKeys m := by
  induction m with
  | nil => simp [dictGet?, dictKeys]
  | cons q rest ih =>
    obtain ⟨k', v'⟩ := q
    by_cases h : k' = k
    · subst h
      simp [dictGet?, dictKeys]
    · have hne : ¬ k = k' := fun h' => h h'.symm
      simp only [dictGet?, if_neg h, dictKeys, List.map_cons, List.mem_cons,
        not_or]
      rw [ih]
      simp [dictKeys, hne]

theorem dictGet?_mem {β : Type} {m : List (String × β)} {k : String} {v : β}
    (h : dictGet? m k = some v) : (k, v) ∈ m := by
  induction m with
  | nil => simp [dictGet?] at h
  | cons q rest ih =>
    obtain ⟨k', v'⟩ := q
    by_cases h2 : k' = k
    · subst h2
      simp only [dictGet?, if_pos, Option.some.injEq] at h
      subst h
      exact List.mem_cons_self _ _
    · simp only [dictGet?, if_neg h2] at h
      exact List.mem_cons_of_mem _ (ih h)

theorem dictGet?_of_mem_nodup {β : Type} {m : List (String × β)} {k : String}
    {v : β} (hm : (k, v) ∈ m) (hn : (dictKeys m).Nodup) :
    dictGet? m k = some v := by
  induction m with
  | nil => simp at hm
  | cons q rest ih =>
    obtain ⟨k', v'⟩ := q
    have hn' := hn
    simp only [dictKeys, List.map_cons, List.nodup_cons] at hn'
    rcases List.mem_cons.mp hm with h1 | h1
    · obtain ⟨h2, h3⟩ := Prod.ext_iff.mp h1
      subst h2
      subst h3
      simp [dictGet?]
    · have hk : k' ≠ k := by
        intro he
        subst he
        exact hn'.1 (List.mem_map_of_mem Prod.fst h1)
      simp only [dictGet?, if_neg hk]
      exact ih h1 (by simpa [dictKeys] using hn'.2)

/-! ## Invariants of the nested accumulation maps -/

/-- Structural invariant of the nested dicts built by `dictBump`: outer
keys distinct, each inner dict's keys distinct, all values non-negative. -/
def GoodMap (m : RevMap) : Prop :=
  (dictKeys m).Nodup ∧ (∀ p ∈ m, (dictKeys p.2).Nodup) ∧
    (∀ p ∈ m, ∀ q ∈ p.2, 0 ≤ q.2)

theorem goodMap_nil : GoodMap [] :=
  ⟨by simp [dictKeys], by simp, by simp⟩

theorem mem_unionCats {m : RevMap} {c : String} :
    c ∈ unionCats m ↔ ∃ p ∈ m, c ∈ dictKeys p.2 := by
  simp [unionCats, List.mem_flatMap]

theorem goodMap_dictBump {m : RevMap} {src cat : String} {a : ℚ}
    (h : GoodMap m) (ha : 0 ≤ a) : GoodMap (dictBump m src cat a) := by
  obtain ⟨h1, h2, h3⟩ := h
  have hinner_nodup : (dictKeys ((dictGet? m src).getD [])).Nodup := by
    cases he : dictGet? m src with
    | none => simp [dictKeys]
    | some w => simpa using h2 (src, w) (dictGet?_mem he)
  have hinner_nonneg : ∀ q ∈ (dictGet? m src).getD ([] : CatAmounts), 0 ≤ q.2 := by
    cases he : dictGet? m src with
    | none => simp
    | some w => simpa using h3 (src, w) (dictGet?_mem he)
  have hold : 0 ≤ (dictGet? ((dictGet? m src).getD []) cat).getD 0 := by
    cases he : dictGet? ((dictGet? m src).getD ([] : CatAmounts)) cat with
    | none => simp
    | some v => simpa using hinner_nonneg (cat, v) (dictGet?_mem he)
  simp only [dictBump]
  refine ⟨nodup_dictKeys_dictInsert h1, ?_, ?_⟩
  · intro p hp
    rcases mem_dictInsert hp with h4 | h4
    · subst h4
      exact nodup_dictKeys_dictInsert hinner_nodup
    · exact h2 p h4
  · intro p hp q hq
    rcases mem_dictInsert hp with h4 | h4
    · subst h4
      rcases mem_dictInsert hq with h5 | h5
      · subst h5
        exact add_nonneg hold ha
      · exact hinner_nonneg q h5
    · exact h3 p h4 q hq

theorem mem_dictKeys_dictBump {m : RevMap} {src cat k : String} {a : ℚ} :
    k ∈ dictKeys (dictBump m src cat a) ↔ k ∈ dictKeys m ∨ k = src := by
  simp only [dictBump]
  exact mem_dictKeys_dictInsert

theorem length_dictBump (m : RevMap) (src cat : String) (a : ℚ) :
    (dictBump m src cat a).length =
      if src ∈ dictKeys m then m.length else m.length + 1 := by
  simp only [dictBump]
  exact length_dictInsert ..

theorem mem_unionCats_dictBump {m : RevMap} {src cat c : String} {a : ℚ}
    (hn : (dictKeys m).Nodup) :
    c ∈ unionCats (dictBump m src cat a) ↔ c ∈ unionCats m ∨ c = cat := by
  simp only [dictBump]
  constructor
  · intro hc
    rcases mem_unionCats.mp hc with ⟨p, hp, hcp⟩
    rcases mem_dictInsert hp with h1 | h1
    · subst h1
      rcases mem_dictKeys_dictInsert.mp hcp with h2 | h2
      · cases he : dictGet? m src with
        | none =>
          rw [he] at h2
          simp [dictKeys] at h2
        | some w =>
          rw [he] at h2
          exact Or.inl (mem_unionCats.mpr
            ⟨(src, w), dictGet?_mem he, by simpa using h2⟩)
      · exact Or.inr h2
    · exact Or.inl (mem_unionCats.mpr ⟨p, h1, hcp⟩)
  · intro hc
    rcases hc with h1 | h1
    · rcases mem_unionCats.mp h1 with ⟨p, hp, hcp⟩
      by_cases h2 : p.1 = src
      · have he : dictGet? m src = some p.2 := by
          rw [← h2]
          exact dictGet?_of_mem_nodup (by exact hp) hn
        have hgd : (dictGet? m src).getD ([] : CatAmounts) = p.2 := by
          rw [he]
          rfl
        refine mem_unionCats.mpr ⟨_, self_mem_dictInsert .., ?_⟩
        rw [hgd]
        exact mem_dictKeys_dictInsert.mpr (Or.inl hcp)
      · exact mem_unionCats.mpr ⟨p, mem_dictInsert_of_ne hp h2, hcp⟩
    · subst h1
      refine mem_unionCats.mpr ⟨_, self_mem_dictInsert .., ?_⟩
      exact mem_dictKeys_dictInsert.mpr (Or.inr rfl)

/-! ### The `revenue_to_category` fold -/

theorem goodMap_addIncomeTx {m : RevMap} {t : IncomeTx} (h : GoodMap m) :
    GoodMap (addIncomeTx m t) :=
  goodMap_dictBump h (abs_nonneg _)

theorem mem_dictKeys_addIncomeTx {m : RevMap} {t : IncomeTx} {k : String} :
    k ∈ dictKeys (addIncomeTx m t) ↔ k ∈ dictKeys m ∨ k = sourceOf t :=
  mem_dictKeys_dictBump

theorem mem_unionCats_addIncomeTx {m : RevMap} {t : IncomeTx} {c : String}
    (hn : (dictKeys m).Nodup) :
    c ∈ unionCats (addIncomeTx m t) ↔ c ∈ unionCats m ∨ c = categoryOf t :=
  mem_unionCats_dictBump hn

theorem goodMap_foldl_addIncomeTx (txs : List IncomeTx) (acc : RevMap)
    (h : GoodMap acc) : GoodMap (txs.foldl addIncomeTx acc) := by
  induction txs generalizing acc with
  | nil => simpa using h
  | cons t rest ih =>
    simp only [List.foldl_cons]
    exact ih _ (goodMap_addIncomeTx h)

theorem goodMap_revenueToCategory (txs : List IncomeTx) :
    GoodMap (revenueToCategory txs) :=
  goodMap_foldl_addIncomeTx txs [] goodMap_nil

theorem mem_keys_foldl_addIncomeTx (txs : List IncomeTx) (acc : RevMap)
    (k : String) :
    k ∈ dictKeys (txs.foldl addIncomeTx acc) ↔
      k ∈ dictKeys acc ∨ k ∈ txs.map sourceOf := by
  induction txs generalizing acc with
  | nil => simp
  | cons t rest ih =>
    simp only [List.foldl_cons, List.map_cons, List.mem_cons]
    rw [ih, mem_dictKeys_addIncomeTx]
    tauto

theorem mem_keys_revenueToCategory {txs : List IncomeTx} {k : String} :
    k ∈ dictKeys (revenueToCategory txs) ↔ k ∈ txs.map sourceOf := by
  rw [revenueToCategory, mem_keys_foldl_addIncomeTx]
  simp [dictKeys]

theorem mem_unionCats_foldl_addIncomeTx (txs : List IncomeTx) (acc : RevMap)
    (c : String) (h : GoodMap acc) :
    c ∈ unionCats (txs.foldl addIncomeTx acc) ↔
      c ∈ unionCats acc ∨ c ∈ txs.map categoryOf := by
  induction txs generalizing acc with
  | nil => simp
  | cons t rest ih =>
    simp only [List.foldl_cons, List.map_cons, List.mem_cons]
    rw [ih _ (goodMap_addIncomeTx h), mem_unionCats_addIncomeTx h.1]
    tauto

theorem mem_unionCats_revenueToCategory {txs : List IncomeTx} {c : String} :
    c ∈ unionCats (revenueToCategory txs) ↔ c ∈ txs.map categoryOf := by
  rw [revenueToCategory, mem_unionCats_foldl_addIncomeTx _ _ _ goodMap_nil]
  simp [unionCats]

theorem length_revenueToCategory (txs : List IncomeTx) :
    (revenueToCategory txs).length = (txs.map sourceOf).toFinset.card := by
  have h1 : (revenueToCategory txs).length =
      (dictKeys (revenueToCategory txs)).length := by
    simp [dictKeys]
  rw [h1, ← List.toFinset_card_of_nodup (goodMap_revenueToCategory txs).1]
  congr 1
  ext k
  simp [mem_keys_revenueToCategory]

/-! ### Index dict lemmas -/

theorem dictGet?_indexLoop_not_mem {ks : List String} {acc : List (String × ℕ)}
    {s : ℕ} {k : String} (h : k ∉ ks) :
    dictGet? (indexLoop acc s ks) k = dictGet? acc k := by
  induction ks generalizing acc s with
  | nil => simp [indexLoop]
  | cons k' rest ih =>
    have h1 : k ∉ rest := fun hh => h (List.mem_cons_of_mem _ hh)
    have h2 : k ≠ k' := fun hh => h (hh ▸ List.mem_cons_self _ _)
    simp only [indexLoop]
    rw [ih h1, dictGet?_dictInsert_ne _ h2]

theorem dictGet?_indexLoop_mem {ks : List String} {acc : List (String × ℕ)}
    {s : ℕ} {k : String} (h : k ∈ ks) :
    ∃ i, dictGet? (indexLoop acc s ks) k = some i ∧ s ≤ i ∧
      i < s + ks.length := by
  induction ks generalizing acc s with
  | nil => simp at h
  | cons k' rest ih =>
    simp only [indexLoop]
    by_cases h1 : k ∈ rest
    · obtain ⟨i, hi, hs, hl⟩ := @ih (dictInsert acc k' s) (s + 1) h1
      refine ⟨i, hi, by omega, ?_⟩
      simp only [List.length_cons]
      omega
    · have h2 : k = k' := by
        rcases List.mem_cons.mp h with h3 | h3
        · exact h3
        · exact absurd h3 h1
      subst h2
      rw [dictGet?_indexLoop_not_mem h1, dictGet?_dictInsert_self]
      refine ⟨s, rfl, le_refl s, ?_⟩
      simp only [List.length_cons]
      omega

theorem dictGet?_indexLoop_some {ks : List String} {acc : List (String × ℕ)}
    {s : ℕ} {k : String} {i : ℕ}
    (h : dictGet? (indexLoop acc s ks) k = some i) :
    dictGet? acc k = some i ∨ (s ≤ i ∧ i < s + ks.length) := by
  induction ks generalizing acc s with
  | nil => exact Or.inl h
  | cons k' rest ih =>
    simp only [indexLoop] at h
    rcases ih h with h1 | h1
    · by_cases h2 : k = k'
      · subst h2
        rw [dictGet?_dictInsert_self] at h1
        obtain rfl : s = i := by simpa using h1
        refine Or.inr ⟨le_refl _, ?_⟩
        simp only [List.length_cons]
        omega
      · rw [dictGet?_dictInsert_ne _ h2] at h1
        exact Or.inl h1
    · refine Or.inr ⟨by omega, ?_⟩
      simp only [List.length_cons]
      omega

theorem dictGet?_indexDict_mem {ks : List String} {s : ℕ} {k : String}
    (h : k ∈ ks) :
    ∃ i, dictGet? (indexDict ks s) k = some i ∧ s ≤ i ∧ i < s + ks.length :=
  dictGet?_indexLoop_mem h

theorem dictGet?_indexDict_some {ks : List String} {s : ℕ} {k : String} {i : ℕ}
    (h : dictGet? (indexDict ks s) k = some i) : s ≤ i ∧ i < s + ks.length := by
  rcases dictGet?_indexLoop_some h with h1 | h1
  · simp [dictGet?] at h1
  · exact h1

theorem dictGet?_indexDict_eq_none {ks : List String} {s : ℕ} {k : String} :
    dictGet? (indexDict ks s) k = none ↔ k ∉ ks := by
  constructor
  · intro h hmem
    obtain ⟨i, hi, _, _⟩ := dictGet?_indexDict_mem (s := s) hmem
    rw [h] at hi
    exact Option.noConfusion hi
  · intro h
    rw [indexDict, dictGet?_indexLoop_not_mem h]
    rfl

/-! ### `firstSeen` lemmas -/

theorem mem_firstSeenAux {l : List String} {seen : List String} {c : String} :
    c ∈ firstSeenAux seen l ↔ c ∈ l ∧ c ∉ seen := by
  induction l generalizing seen with
  | nil => simp [firstSeenAux]
  | cons x rest ih =>
    by_cases h : x ∈ seen
    · rw [firstSeenAux, if_pos h, ih]
      constructor
      · rintro ⟨h1, h2⟩
        exact ⟨List.mem_cons_of_mem _ h1, h2⟩
      · rintro ⟨h1, h2⟩
        rcases List.mem_cons.mp h1 with h3 | h3
        · exact absurd (h3 ▸ h) h2
        · exact ⟨h3, h2⟩
    · rw [firstSeenAux, if_neg h]
      constructor
      · intro h1
        rcases List.mem_cons.mp h1 with h3 | h3
        · subst h3
          exact ⟨List.mem_cons_self _ _, h⟩
        · obtain ⟨h4, h5⟩ := ih.mp h3
          exact ⟨List.mem_cons_of_mem _ h4,
            fun hc => h5 (List.mem_cons_of_mem _ hc)⟩
      · rintro ⟨h1, h2⟩
        by_cases h3 : c = x
        · subst h3
          exact List.mem_cons_self _ _
        · rcases List.mem_cons.mp h1 with h4 | h4
          · exact absurd h4 h3
          · refine List.mem_cons_of_mem _ (ih.mpr ⟨h4, ?_⟩)
            intro h5
            rcases List.mem_cons.mp h5 with h6 | h6
            · exact h3 h6
            · exact h2 h6

theorem nodup_firstSeenAux {l : List String} {seen : List String} :
    (firstSeenAux seen l).Nodup := by
  induction l generalizing seen with
  | nil => simp [firstSeenAux]
  | cons x rest ih =>
    by_cases h : x ∈ seen
    · rw [firstSeenAux, if_pos h]
      exact ih
    · rw [firstSeenAux, if_neg h]
      refine List.nodup_cons.mpr ⟨?_, ih⟩
      intro hx
      exact (mem_firstSeenAux.mp hx).2 (List.mem_cons_self _ _)

theorem mem_firstSeen {l : List String} {c : String} :
    c ∈ firstSeen l ↔ c ∈ l := by
  rw [firstSeen, mem_firstSeenAux]
  simp

theorem nodup_firstSeen (l : List String) : (firstSeen l).Nodup :=
  nodup_firstSeenAux

/-! ## Claim C3: currency discovery -/

theorem currencyNameOf_eq_lastMatch (ks : List String) :
    currencyNameOf ks =
      ((ks.filter (fun k => matchesSpentIn k)).getLast?).map stripSpentIn := by
  suffices h : ∀ acc : Option String,
      ks.foldl
          (fun acc key =>
            if matchesSpentIn key then some (stripSpentIn key) else acc) acc =
        match (ks.filter (fun k => matchesSpentIn k)).getLast? with
        | some k => some (stripSpentIn k)
        | none => acc by
    rw [currencyNameOf, h none]
    cases (ks.filter (fun k => matchesSpentIn k)).getLast? <;> simp
  induction ks with
  | nil =>
    intro acc
    simp
  | cons k rest ih =>
    intro acc
    simp only [List.foldl_cons, List.filter_cons]
    by_cases h : matchesSpentIn k
    · rw [if_pos h, if_pos h, ih]
      cases hr : rest.filter (fun k => matchesSpentIn k) with
      | nil => simp
      | cons f fr =>
        rw [List.getLast?_cons_cons]
        cases hx : (f :: fr).getLast? with
        | none => simp [List.getLast?_eq_none_iff] at hx
        | some x => rfl
    · rw [if_neg h, if_neg h, ih]

/-- Claim C3 (amended): when the summary response is iterated, every key
starting with "spent-in-" overwrites the discovered currency, so the code
actually used is the one stripped from the LAST such key (not the first);
`currencyNameOf` returns exactly the last matching key with the pattern
prefix removed. -/
theorem C3_currency_discovery (ks : List String)
    (h : ∃ k ∈ ks, matchesSpentIn k = true) :
    ∃ lastKey,
      (ks.filter (fun k => matchesSpentIn k)).getLast? = some lastKey ∧
      currencyNameOf ks = some (stripSpentIn lastKey) := by
  obtain ⟨k, hk, hmk⟩ := h
  have hne : ks.filter (fun k => matchesSpentIn k) ≠ [] := by
    intro he
    have : k ∈ ks.filter (fun k => matchesSpentIn k) :=
      List.mem_filter.mpr ⟨hk, hmk⟩
    rw [he] at this
    simp at this
  obtain ⟨lastKey, hl⟩ := Option.ne_none_iff_exists'.mp
    (mt List.getLast?_eq_none_iff.mp hne)
  exact ⟨lastKey, hl, by rw [currencyNameOf_eq_lastMatch, hl, Option.map_some']⟩

/-- Claim C3 witness: at a concrete response with one matching key,
`C3_currency_discovery` applies and discovers that key's currency code. -/
theorem C3_currency_discovery_witness :
    ∃ lastKey,
      ([("balance-in-INR" : String), ("spent-in-INR" : String)].filter
          (fun k => matchesSpentIn k)).getLast? = some lastKey ∧
      currencyNameOf [("balance-in-INR" : String), ("spent-in-INR" : String)] =
        some (stripSpentIn lastKey) :=
  C3_currency_discovery [("balance-in-INR" : String), ("spent-in-INR" : String)]
    ⟨("spent-in-INR" : String), by decide, by decide⟩

/-- Claim C3 counterexample: with two matching keys
(`spent-in-EUR` first, `spent-in-USD` second) the script's loop, which has
no `break`, ends up with the LAST match "USD" — the claim's "first key
wins" predicts "EUR". -/
theorem C3_counterexample :
    currencyNameOf [("spent-in-EUR" : String), ("spent-in-USD" : String)] =
        some ("USD" : String) ∧
      currencyNameOf [("spent-in-EUR" : String), ("spent-in-USD" : String)] ≠
        some ("EUR" : String) := by
  constructor
  · decide
  · decide

/-! ## Claim C4: budget inclusion rule -/

theorem truthy_of_toQ_ne_zero {a : RawAmount} (h : a.toQ ≠ 0) :
    a.truthy = true := by
  cases a with
  | str v => rfl
  | num v =>
    simp only [RawAmount.toQ] at h
    simp [RawAmount.truthy, h]

theorem summarizeBudget1_eq_some {b : RawBudget} :
    summarizeBudget1 b =
      if (budgetLimitOf b).truthy || (spentOf b).truthy then
        some ⟨b.id, b.name, budgetLimitOf b, spentOf b,
          (budgetLimitOf b).toQ + (spentOf b).toQ⟩
      else none := rfl

/-- Claim C4 (amended): the script keeps a budget iff the raw
`auto_budget_amount`-derived limit or the raw spent value is Python-truthy
— for the string-encoded amounts the API returns, any present value is
truthy even when it parses to 0.  Consequently: every budget whose limit or
spent parses to a non-zero number is kept (with
`remaining = limit + spent`), every kept entry satisfies
`remaining = limit + spent`, and the number of entries equals the number of
budgets passing the truthiness test — but a budget whose amounts are
numerically zero can still be kept when a zero arrives as a string (see the
counterexample), so "dropped iff both amounts are 0" does not hold. -/
theorem C4_budget_inclusion (bs : List RawBudget) :
    (summarizeBudgets bs).length =
        (bs.filter
          (fun b => (budgetLimitOf b).truthy || (spentOf b).truthy)).length ∧
      (∀ b ∈ bs, ((budgetLimitOf b).toQ ≠ 0 ∨ (spentOf b).toQ ≠ 0) →
        summarizeBudget1 b =
          some ⟨b.id, b.name, budgetLimitOf b, spentOf b,
            (budgetLimitOf b).toQ + (spentOf b).toQ⟩) ∧
      (∀ e ∈ summarizeBudgets bs, e.remaining = e.limit.toQ + e.spent.toQ) := by
  refine ⟨?_, ?_, ?_⟩
  · induction bs with
    | nil => rfl
    | cons b rest ih =>
      simp only [summarizeBudgets, List.filterMap_cons, List.filter_cons]
      by_cases h : ((budgetLimitOf b).truthy || (spentOf b).truthy) = true
      · rw [summarizeBudget1_eq_some, if_pos h, if_pos h]
        simpa [summarizeBudgets] using ih
      · rw [summarizeBudget1_eq_some, if_neg h, if_neg h]
        simpa [summarizeBudgets] using ih
  · intro b _ h
    rw [summarizeBudget1_eq_some, if_pos]
    rcases h with h | h
    · simp [truthy_of_toQ_ne_zero h]
    · simp [truthy_of_toQ_ne_zero h]
  · intro e he
    obtain ⟨b, _, hb⟩ := List.mem_filterMap.mp he
    rw [summarizeBudget1_eq_some] at hb
    by_cases h : ((budgetLimitOf b).truthy || (spentOf b).truthy) = true
    · rw [if_pos h] at hb
      obtain rfl : _ = e := Option.some.inj hb
      rfl
    · rw [if_neg h] at hb
      exact Option.noConfusion hb

/-- A concrete budget with a non-zero spent amount, used by the witness. -/
def spentBudget : RawBudget :=
  ⟨"2", "Rent", AutoBudgetField.null, [], some (RawAmount.str (-5))⟩

/-- Claim C4 witness: `C4_budget_inclusion` applied to a one-budget list
whose spent value parses to −5 ≠ 0 shows the budget is kept with
`remaining = limit + spent`. -/
theorem C4_budget_inclusion_witness :
    summarizeBudget1 spentBudget =
      some ⟨spentBudget.id, spentBudget.name, budgetLimitOf spentBudget,
        spentOf spentBudget,
        (budgetLimitOf spentBudget).toQ + (spentOf spentBudget).toQ⟩ :=
  (C4_budget_inclusion [spentBudget]).2.1 spentBudget
    (List.mem_singleton.mpr rfl) (Or.inr (by decide))

/-- A budget whose only budget-limit record carries the amount string
"0.00" (numerically zero, but truthy as a non-empty Python string) and
which has no spending. -/
def zeroStringBudget : RawBudget :=
  ⟨"1", "Idle", AutoBudgetField.null, [RawAmount.str 0], none⟩

/-- Claim C4 counterexample: this budget has `limitAmount = 0` and
`spentAmount = 0`, yet `summarizeBudgets` produces an entry for it
(`if budgetLimit or budgetSpent` sees the truthy string "0.00"), so the
claim's "no BudgetSummary is produced for limit 0 and spent 0" fails. -/
theorem C4_counterexample :
    (budgetLimitOf zeroStringBudget).toQ = 0 ∧
      (spentOf zeroStringBudget).toQ = 0 ∧
      (summarizeBudgets [zeroStringBudget]).length = 1 := by
  refine ⟨rfl, rfl, ?_⟩
  decide

/-! ## Claim C5: category sort order and stability -/

theorem catLE_iff {a b : CategorySummary} :
    catLE a b = true ↔
      (((catKey a).1 = false ∧ (catKey b).1 = true) ∨
        ((catKey a).1 = (catKey b).1 ∧ (catKey a).2 ≤ (catKey b).2)) := by
  simp [catLE, Bool.or_eq_true, Bool.and_eq_true, Bool.not_eq_true',
    beq_iff_eq, decide_eq_true_eq]

theorem catLE_total (a b : CategorySummary) : catLE a b || catLE b a := by
  rw [Bool.or_eq_true, catLE_iff, catLE_iff]
  cases ha : (catKey a).1 <;> cases hb : (catKey b).1
  · rcases le_total (catKey a).2 (catKey b).2 with h | h
    · exact Or.inl (Or.inr ⟨rfl, h⟩)
    · exact Or.inr (Or.inr ⟨rfl, h⟩)
  · exact Or.inl (Or.inl ⟨rfl, rfl⟩)
  · exact Or.inr (Or.inl ⟨rfl, rfl⟩)
  · rcases le_total (catKey a).2 (catKey b).2 with h | h
    · exact Or.inl (Or.inr ⟨rfl, h⟩)
    · exact Or.inr (Or.inr ⟨rfl, h⟩)

theorem catLE_trans (a b c : CategorySummary) (h1 : catLE a b)
    (h2 : catLE b c) : catLE a c := by
  rw [catLE_iff] at h1 h2 ⊢
  rcases h1 with ⟨ha, hb⟩ | ⟨hab, hle⟩
  · rcases h2 with ⟨hb', hc⟩ | ⟨hbc, hle'⟩
    · rw [hb] at hb'
      exact Bool.noConfusion hb'
    · exact Or.inl ⟨ha, hbc ▸ hb⟩
  · rcases h2 with ⟨hb', hc⟩ | ⟨hbc, hle'⟩
    · exact Or.inl ⟨hab.trans hb', hc⟩
    · exact Or.inr ⟨hab.trans hbc, hle.trans hle'⟩

/-- Claim C5: in the sorted category sequence, zero-net entries come after
all non-zero entries; among the entries, absolute net totals are
non-increasing over the non-zero prefix; and the sort is stable (any two
entries with equal sort keys keep their relative fetch order).  The sorted
list is a permutation of the input. -/
theorem C5_category_sort (l : List CategorySummary) :
    List.Perm (sortCategories l) l ∧
      (sortCategories l).Pairwise (fun a b =>
        (a.total = 0 → b.total = 0) ∧
        (a.total ≠ 0 → b.total ≠ 0 → |b.total| ≤ |a.total|)) ∧
      (∀ a b, List.Sublist [a, b] l → catKey a = catKey b →
        List.Sublist [a, b] (sortCategories l)) := by
  refine ⟨List.mergeSort_perm l catLE, ?_, ?_⟩
  · have hs := List.sorted_mergeSort catLE_trans catLE_total l
    refine hs.imp ?_
    intro a b hab
    rw [catLE_iff] at hab
    simp only [catKey, decide_eq_decide, decide_eq_true_eq,
      decide_eq_false_iff_not] at hab
    constructor
    · intro ha0
      rcases hab with ⟨h1, h2⟩ | ⟨h1, h2⟩
      · exact absurd ha0 h1
      · exact h1.mp ha0
    · intro ha0 hb0
      rcases hab with ⟨h1, h2⟩ | ⟨h1, h2⟩
      · exact absurd h2 hb0
      · exact neg_le_neg_iff.mp h2
  · intro a b hsub hkey
    refine List.pair_sublist_mergeSort catLE_trans catLE_total ?_ hsub
    rw [catLE_iff]
    exact Or.inr ⟨congrArg Prod.fst hkey,
      le_of_eq (congrArg Prod.snd hkey)⟩

/-- Two concrete zero-total categories with the same sort key, in fetch
order. -/
def giftCat : CategorySummary := ⟨"Gift", 0, 0, 0⟩

/-- Second concrete category for the stability witness. -/
def miscCat : CategorySummary := ⟨"Misc", 0, 0, 0⟩

/-- Claim C5 witness: `C5_category_sort` applied to a concrete two-element
list whose entries share a sort key — the stability conjunct keeps them in
fetch order. -/
theorem C5_category_sort_witness :
    List.Sublist [giftCat, miscCat] (sortCategories [giftCat, miscCat]) :=
  (C5_category_sort [giftCat, miscCat]).2.2 giftCat miscCat
    (List.Sublist.refl _) (by decide)

/-! ## Edge-weight lemmas -/

theorem revCatLinks_value_nonneg {m : RevMap} {order : List String}
    (hm : GoodMap m) : ∀ l ∈ revCatLinks m order, 0 ≤ l.value := by
  intro l hl
  simp only [revCatLinks, List.mem_flatMap, List.mem_map] at hl
  obtain ⟨p, hp, q, hq, rfl⟩ := hl
  exact hm.2.2 p hp q hq

theorem catTotal_nonneg {m : RevMap} (hm : GoodMap m) (c : String) :
    0 ≤ catTotal m c := by
  refine List.sum_nonneg ?_
  intro x hx
  simp only [List.mem_map] at hx
  obtain ⟨p, hp, rfl⟩ := hx
  cases he : dictGet? p.2 c with
  | none => simp
  | some v =>
    have := hm.2.2 p hp (c, v) (dictGet?_mem he)
    simpa [he] using this

theorem catHubLinks_value_pos {m : RevMap} {order : List String} :
    ∀ l ∈ catHubLinks m order, 0 < l.value := by
  intro l hl
  simp only [catHubLinks, List.mem_filterMap] at hl
  obtain ⟨c, hc, hl⟩ := hl
  by_cases h : 0 < catTotal m c
  · rw [if_pos h] at hl
    obtain rfl := Option.some.inj hl
    exact h
  · rw [if_neg h] at hl
    exact Option.noConfusion hl

theorem hubBudgetLinks_value_pos {m : RevMap} {order : List String}
    {budgets : List BudgetSummary} :
    ∀ l ∈ hubBudgetLinks m order budgets, 0 < l.value := by
  intro l hl
  simp only [hubBudgetLinks, List.mem_filterMap] at hl
  obtain ⟨b, hb, hl⟩ := hl
  by_cases h : b.spentQ ≠ 0
  · rw [if_pos h] at hl
    obtain rfl := Option.some.inj hl
    exact abs_pos.mpr h
  · rw [if_neg h] at hl
    exact Option.noConfusion hl

theorem budgetCatLinks_value_pos {m : RevMap} {order : List String}
    {budgets : List BudgetSummary} {totals : List CategorySummary}
    {fetch : String → Option (List BudgetTx)} :
    ∀ l ∈ budgetCatLinks m order budgets totals fetch, 0 < l.value := by
  intro l hl
  simp only [budgetCatLinks, List.mem_flatMap] at hl
  obtain ⟨p, hp, hl⟩ := hl
  cases hbi : dictGet? (budgetIdx m order budgets) p.1 with
  | none =>
    rw [hbi] at hl
    simp at hl
  | some bi =>
    rw [hbi] at hl
    simp only [List.mem_filterMap] at hl
    obtain ⟨q, hq, hl⟩ := hl
    cases hci : dictGet? (expCatIdx m order budgets totals) q.1 with
    | none =>
      rw [hci] at hl
      exact Option.noConfusion hl
    | some ci =>
      rw [hci] at hl
      dsimp only at hl
      by_cases h : 0 < q.2
      · rw [if_pos h] at hl
        obtain rfl := Option.some.inj hl
        exact h
      · rw [if_neg h] at hl
        exact Option.noConfusion hl

theorem mem_savingsLinks {m : RevMap} {order : List String}
    {budgets : List BudgetSummary} {totals : List CategorySummary} {net : ℚ}
    {l : SankeyLink} :
    l ∈ savingsLinks m order budgets totals net ↔
      0 < net ∧
        l = ⟨m.length + order.length,
          m.length + order.length + 1 + (graphBudgets budgets).length
            + (expenseCategories totals).length, net⟩ := by
  rw [savingsLinks]
  split
  · next h => simp [h]
  · next h => simp [h]

theorem savingsLinks_value_pos {m : RevMap} {order : List String}
    {budgets : List BudgetSummary} {totals : List CategorySummary} {net : ℚ} :
    ∀ l ∈ savingsLinks m order budgets totals net, 0 < l.value := by
  intro l hl
  obtain ⟨h, rfl⟩ := mem_savingsLinks.mp hl
  exact h

/-- Claim C1 (amended): every emitted edge has weight ≥ 0, and every edge
of the four later families (IncomeCategory→IncomeHub, IncomeHub→Budget,
Budget→ExpenseCategory, IncomeHub→Savings — the part of the link list
after the RevenueAccount→IncomeCategory block) has weight > 0; but the
RevenueAccount→IncomeCategory links are emitted without a positivity
check, so a weight-0 edge can appear there (see the counterexample). -/
theorem C1_edge_weights (txs : List IncomeTx) (order : List String)
    (budgets : List BudgetSummary) (totals : List CategorySummary)
    (net : ℚ) (fetch : String → Option (List BudgetTx)) :
    (∀ l ∈ (buildSankey txs order budgets totals net fetch).links,
        0 ≤ l.value) ∧
      (∀ l ∈ ((buildSankey txs order budgets totals net fetch).links.drop
          (revCatLinks (revenueToCategory txs) order).length), 0 < l.value) := by
  have hm := goodMap_revenueToCategory txs
  constructor
  · intro l hl
    simp only [buildSankey, List.mem_append] at hl
    rcases hl with ((((h | h) | h) | h) | h)
    · exact revCatLinks_value_nonneg hm l h
    · exact le_of_lt (catHubLinks_value_pos l h)
    · exact le_of_lt (hubBudgetLinks_value_pos l h)
    · exact le_of_lt (budgetCatLinks_value_pos l h)
    · exact le_of_lt (savingsLinks_value_pos l h)
  · intro l hl
    simp only [buildSankey] at hl
    rw [List.append_assoc, List.append_assoc, List.append_assoc,
      List.drop_left] at hl
    simp only [List.mem_append] at hl
    rcases hl with h | (h | (h | h))
    · exact catHubLinks_value_pos l h
    · exact hubBudgetLinks_value_pos l h
    · exact budgetCatLinks_value_pos l h
    · exact savingsLinks_value_pos l h

/-- A deposit transaction leg with amount 0. -/
def zeroTx : IncomeTx := ⟨0, some ("A"), some ("B")⟩

/-- Claim C1 counterexample: a single deposit transaction of amount 0
produces a RevenueAccount→IncomeCategory edge of weight 0 — the emitted
edge sequence contains an edge with value ≤ 0, contradicting "no edge with
computed weight ≤ 0 ever appears". -/
theorem C1_counterexample :
    ∃ l ∈ (buildSankey [zeroTx] [("B" : String)] [] [] 0
        (fun _ => none)).links, l.value ≤ 0 := by
  refine ⟨SankeyLink.mk 0 1 0, ?_, le_refl 0⟩
  simp [buildSankey, revCatLinks, catHubLinks, hubBudgetLinks, budgetCatLinks,
    savingsLinks, revenueToCategory, addIncomeTx, dictBump, sourceOf,
    categoryOf, pyOr, dictGet?, dictInsert, dictKeys, indexDict, indexLoop,
    catTotal, buildBudgetCategoryMap, unionCats, zeroTx, graphBudgets,
    expenseCategories]

/-- A deposit transaction leg of amount 1 from "Employer" to "Salary". -/
def salaryTx : IncomeTx := ⟨1, some ("Employer"), some ("Salary")⟩

/-- Claim C1 witness: `C1_edge_weights` applied to a concrete run — the
Employer→Salary edge it emits has non-negative weight. -/
theorem C1_edge_weights_witness :
    SankeyLink.mk 0 1 1 ∈
        (buildSankey [salaryTx] [("Salary" : String)] [] [] 0
          (fun _ => none)).links ∧
      (0 : ℚ) ≤ (SankeyLink.mk 0 1 1).value := by
  have hmem : SankeyLink.mk 0 1 1 ∈
      (buildSankey [salaryTx] [("Salary" : String)] [] [] 0
        (fun _ => none)).links := by
    simp [buildSankey, revCatLinks, catHubLinks, hubBudgetLinks,
      budgetCatLinks, savingsLinks, revenueToCategory, addIncomeTx, dictBump,
      sourceOf, categoryOf, pyOr, dictGet?, dictInsert, dictKeys, indexDict,
      indexLoop, catTotal, buildBudgetCategoryMap, unionCats, salaryTx,
      graphBudgets, expenseCategories]
  exact ⟨hmem,
    (C1_edge_weights [salaryTx] [("Salary" : String)] [] [] 0
      (fun _ => none)).1 (SankeyLink.mk 0 1 1) hmem⟩

/-! ## Claim C10: income conservation through the category layer -/

theorem map_zero_sum (o : List String) : (o.map (fun _ => (0 : ℚ))).sum = 0 := by
  induction o with
  | nil => rfl
  | cons x r ih => simp [ih]

theorem map_add_sum (o : List String) (f g : String → ℚ) :
    (o.map (fun c => f c + g c)).sum = (o.map f).sum + (o.map g).sum := by
  induction o with
  | nil => simp
  | cons x r ih =>
    simp only [List.map_cons, List.sum_cons, ih]
    ring

theorem sum_ite_insert (order : List String) (c₀ : String) (v₀ : ℚ)
    (g : String → ℚ) (hmem : c₀ ∈ order) (ho : order.Nodup) (hg : g c₀ = 0) :
    (order.map (fun c => if c₀ = c then v₀ else g c)).sum =
      v₀ + (order.map g).sum := by
  induction order with
  | nil => simp at hmem
  | cons x rest ih =>
    have hcons := List.nodup_cons.mp ho
    rcases List.mem_cons.mp hmem with h1 | h1
    · subst h1
      have hr : rest.map (fun c => if c₀ = c then v₀ else g c) = rest.map g :=
        List.map_congr_left (fun c hc =>
          if_neg (fun he => hcons.1 (by rw [he]; exact hc)))
      rw [List.map_cons, List.sum_cons, if_pos rfl, hr, List.map_cons,
        List.sum_cons, hg]
      ring
    · have hx : ¬ c₀ = x := fun he => hcons.1 (by rw [← he]; exact h1)
      rw [List.map_cons, List.sum_cons, if_neg hx, ih h1 hcons.2,
        List.map_cons, List.sum_cons]
      ring

theorem sum_getD_eq_sum_values (inner : CatAmounts) (order : List String)
    (hn : (dictKeys inner).Nodup) (hsub : ∀ c ∈ dictKeys inner, c ∈ order)
    (ho : order.Nodup) :
    (order.map (fun c => (dictGet? inner c).getD 0)).sum =
      (inner.map Prod.snd).sum := by
  induction inner with
  | nil =>
    rw [show order.map (fun c => (dictGet? ([] : CatAmounts) c).getD 0) =
        order.map (fun _ => (0 : ℚ)) from List.map_congr_left (fun c _ => rfl)]
    simp [map_zero_sum]
  | cons q rest ih =>
    obtain ⟨c₀, v₀⟩ := q
    have hkeys : dictKeys ((c₀, v₀) :: rest) = c₀ :: dictKeys rest := rfl
    rw [hkeys] at hn hsub
    have hncons := List.nodup_cons.mp hn
    have hsplit : ∀ c, (dictGet? ((c₀, v₀) :: rest) c).getD 0 =
        if c₀ = c then v₀ else (dictGet? rest c).getD 0 := by
      intro c
      by_cases h : c₀ = c
      · simp [dictGet?, h]
      · simp [dictGet?, h]
    rw [List.map_congr_left (fun c _ => hsplit c)]
    have hc₀ : c₀ ∈ order := hsub c₀ (List.mem_cons_self _ _)
    have hg : (dictGet? rest c₀).getD 0 = 0 := by
      rw [dictGet?_eq_none_iff.mpr hncons.1]
      rfl
    rw [sum_ite_insert order c₀ v₀ _ hc₀ ho hg,
      ih hncons.2 (fun c hc => hsub c (List.mem_cons_of_mem _ hc))]
    simp

theorem catTotal_cons (p : String × CatAmounts) (m : RevMap) (c : String) :
    catTotal (p :: m) c = (dictGet? p.2 c).getD 0 + catTotal m c := by
  simp [catTotal]

theorem sum_catTotal_eq (m : RevMap) (order : List String) (hm : GoodMap m)
    (ho : order.Nodup) (hsub : ∀ c ∈ unionCats m, c ∈ order) :
    (order.map (fun c => catTotal m c)).sum =
      (m.map (fun p => (p.2.map Prod.snd).sum)).sum := by
  induction m with
  | nil =>
    rw [show order.map (fun c => catTotal [] c) =
        order.map (fun _ => (0 : ℚ)) from
      List.map_congr_left (fun c _ => by simp [catTotal])]
    simp [map_zero_sum]
  | cons p m' ih =>
    have hm' : GoodMap m' := by
      obtain ⟨h1, h2, h3⟩ := hm
      refine ⟨?_, fun q hq => h2 q (List.mem_cons_of_mem _ hq),
        fun q hq r hr => h3 q (List.mem_cons_of_mem _ hq) r hr⟩
      rw [show dictKeys (p :: m') = p.1 :: dictKeys m' from rfl] at h1
      exact (List.nodup_cons.mp h1).2
    have hsub' : ∀ c ∈ unionCats m', c ∈ order := by
      intro c hc
      obtain ⟨q, hq, hcq⟩ := mem_unionCats.mp hc
      exact hsub c (mem_unionCats.mpr ⟨q, List.mem_cons_of_mem _ hq, hcq⟩)
    have hinner_nodup : (dictKeys p.2).Nodup := hm.2.1 p (List.mem_cons_self _ _)
    have hinner_sub : ∀ c ∈ dictKeys p.2, c ∈ order := fun c hc =>
      hsub c (mem_unionCats.mpr ⟨p, List.mem_cons_self _ _, hc⟩)
    calc (order.map (fun c => catTotal (p :: m') c)).sum
        = (order.map (fun c =>
            (dictGet? p.2 c).getD 0 + catTotal m' c)).sum := by
          exact congrArg List.sum
            (List.map_congr_left (fun c _ => catTotal_cons p m' c))
      _ = (order.map (fun c => (dictGet? p.2 c).getD 0)).sum +
            (order.map (fun c => catTotal m' c)).sum := map_add_sum ..
      _ = (p.2.map Prod.snd).sum +
            (m'.map (fun p => (p.2.map Prod.snd).sum)).sum := by
          rw [sum_getD_eq_sum_values p.2 order hinner_nodup hinner_sub ho,
            ih hm' hsub']
      _ = ((p :: m').map (fun p => (p.2.map Prod.snd).sum)).sum := by simp

theorem sum_flatMap_rat (m : RevMap) (f : String × CatAmounts → List ℚ) :
    (m.flatMap f).sum = (m.map (fun p => (f p).sum)).sum := by
  induction m with
  | nil => simp
  | cons p m' ih => simp [List.flatMap_cons, List.sum_append, ih]

theorem revCatLinks_value_sum (m : RevMap) (order : List String) :
    ((revCatLinks m order).map SankeyLink.value).sum =
      (m.map (fun p => (p.2.map Prod.snd).sum)).sum := by
  rw [revCatLinks, List.map_flatMap]
  rw [sum_flatMap_rat m (fun p => (p.2.map _).map SankeyLink.value)]
  refine congrArg List.sum (List.map_congr_left ?_)
  intro p _
  rw [List.map_map]
  exact congrArg List.sum (List.map_congr_left (fun q _ => rfl))

theorem filterMap_value_sum (o : List String) (t : String → ℚ)
    (s : String → ℕ) (tgt : ℕ) (ht : ∀ c ∈ o, 0 ≤ t c) :
    ((o.filterMap (fun c =>
        if 0 < t c then some (SankeyLink.mk (s c) tgt (t c)) else none)).map
      SankeyLink.value).sum = (o.map t).sum := by
  induction o with
  | nil => rfl
  | cons c rest ih =>
    have ht' : ∀ x ∈ rest, 0 ≤ t x := fun x hx =>
      ht x (List.mem_cons_of_mem _ hx)
    rw [List.filterMap_cons]
    by_cases h : 0 < t c
    · rw [if_pos h]
      simp only [List.map_cons, List.sum_cons]
      rw [ih ht']
    · rw [if_neg h]
      have h0 : t c = 0 :=
        le_antisymm (not_lt.mp h) (ht c (List.mem_cons_self _ _))
      simp only [List.map_cons, List.sum_cons, h0, zero_add]
      exact ih ht'

theorem catHubLinks_value_sum (m : RevMap) (order : List String)
    (hm : GoodMap m) :
    ((catHubLinks m order).map SankeyLink.value).sum =
      (order.map (fun c => catTotal m c)).sum := by
  rw [catHubLinks]
  exact filterMap_value_sum order (fun c => catTotal m c)
    (fun c => (dictGet? (indexDict order m.length) c).getD 0)
    (m.length + order.length) (fun c _ => catTotal_nonneg hm c)

/-- Claim C10: income is conserved through the income-category layer — the
sum of the IncomeCategory→IncomeHub edge weights equals the sum of the
RevenueAccount→IncomeCategory edge weights (both equal the total
accumulated absolute amount; the categories the hub loop drops have total
0 because every accumulated amount is non-negative). -/
theorem C10_income_conservation (txs : List IncomeTx) (order : List String)
    (h : ValidCatOrder (revenueToCategory txs) order) :
    ((catHubLinks (revenueToCategory txs) order).map SankeyLink.value).sum =
      ((revCatLinks (revenueToCategory txs) order).map SankeyLink.value).sum := by
  have hm := goodMap_revenueToCategory txs
  rw [catHubLinks_value_sum _ _ hm, revCatLinks_value_sum,
    sum_catTotal_eq _ _ hm h.1 h.2.2]

/-- Claim C10 witness: `C10_income_conservation` applied to a concrete
one-transaction run with its (unique) admissible category order. -/
theorem C10_income_conservation_witness :
    ((catHubLinks (revenueToCategory [salaryTx]) [("Salary" : String)]).map
        SankeyLink.value).sum =
      ((revCatLinks (revenueToCategory [salaryTx]) [("Salary" : String)]).map
        SankeyLink.value).sum :=
  C10_income_conservation [salaryTx] [("Salary" : String)] (by decide)

/-! ## Claim C9: every link goes forward in node-index order -/

theorem dictKeys_length {β : Type} (m : List (String × β)) :
    (dictKeys m).length = m.length := by
  simp [dictKeys]

theorem revCatLinks_forward {m : RevMap} {order : List String}
    (hsub : ∀ c ∈ unionCats m, c ∈ order) :
    ∀ l ∈ revCatLinks m order, l.source < m.length ∧
      m.length ≤ l.target ∧ l.target < m.length + order.length := by
  intro l hl
  simp only [revCatLinks, List.mem_flatMap, List.mem_map] at hl
  obtain ⟨p, hp, q, hq, rfl⟩ := hl
  have hpk : p.1 ∈ dictKeys m := by
    simp only [dictKeys, List.mem_map]
    exact ⟨p, hp, rfl⟩
  obtain ⟨i, hi, his, hil⟩ := dictGet?_indexDict_mem (s := 0) hpk
  have hqk : q.1 ∈ order := by
    refine hsub q.1 (mem_unionCats.mpr ⟨p, hp, ?_⟩)
    simp only [dictKeys, List.mem_map]
    exact ⟨q, hq, rfl⟩
  obtain ⟨j, hj, hjs, hjl⟩ := dictGet?_indexDict_mem (s := m.length) hqk
  rw [dictKeys_length] at hil
  dsimp only
  rw [hi, hj]
  simp only [Option.getD_some]
  refine ⟨by omega, by omega, by omega⟩

theorem catHubLinks_forward {m : RevMap} {order : List String} :
    ∀ l ∈ catHubLinks m order,
      m.length ≤ l.source ∧ l.source < m.length + order.length ∧
        l.target = m.length + order.length := by
  intro l hl
  simp only [catHubLinks, List.mem_filterMap] at hl
  obtain ⟨c, hc, hl⟩ := hl
  by_cases h : 0 < catTotal m c
  · rw [if_pos h] at hl
    obtain rfl := Option.some.inj hl
    obtain ⟨j, hj, hjs, hjl⟩ := dictGet?_indexDict_mem (s := m.length) hc
    dsimp only
    rw [hj]
    simp only [Option.getD_some]
    refine ⟨hjs, hjl, ?_⟩
    exact trivial
  · rw [if_neg h] at hl
    exact Option.noConfusion hl

theorem hubBudgetLinks_forward {m : RevMap} {order : List String}
    {budgets : List BudgetSummary} :
    ∀ l ∈ hubBudgetLinks m order budgets,
      l.source = m.length + order.length ∧
        m.length + order.length + 1 ≤ l.target ∧
        l.target < m.length + order.length + 1 + (graphBudgets budgets).length := by
  intro l hl
  simp only [hubBudgetLinks, List.mem_filterMap] at hl
  obtain ⟨b, hb, hl⟩ := hl
  by_cases h : b.spentQ ≠ 0
  · rw [if_pos h] at hl
    obtain rfl := Option.some.inj hl
    have hbk : b.name ∈ (graphBudgets budgets).map BudgetSummary.name := by
      simp only [List.mem_map]
      refine ⟨b, ?_, rfl⟩
      rw [graphBudgets, List.mem_filter]
      exact ⟨hb, by simpa using h⟩
    obtain ⟨j, hj, hjs, hjl⟩ :=
      dictGet?_indexDict_mem (s := m.length + order.length + 1) hbk
    rw [List.length_map] at hjl
    dsimp only
    rw [budgetIdx, hj]
    simp only [Option.getD_some]
    exact ⟨trivial, hjs, hjl⟩
  · rw [if_neg h] at hl
    exact Option.noConfusion hl

theorem budgetCatLinks_forward {m : RevMap} {order : List String}
    {budgets : List BudgetSummary} {totals : List CategorySummary}
    {fetch : String → Option (List BudgetTx)} :
    ∀ l ∈ budgetCatLinks m order budgets totals fetch,
      m.length + order.length + 1 ≤ l.source ∧
        l.source < m.length + order.length + 1 + (graphBudgets budgets).length ∧
        m.length + order.length + 1 + (graphBudgets budgets).length ≤ l.target := by
  intro l hl
  simp only [budgetCatLinks, List.mem_flatMap] at hl
  obtain ⟨p, hp, hl⟩ := hl
  cases hbi : dictGet? (budgetIdx m order budgets) p.1 with
  | none =>
    rw [hbi] at hl
    simp at hl
  | some bi =>
    rw [hbi] at hl
    simp only [List.mem_filterMap] at hl
    obtain ⟨q, hq, hl⟩ := hl
    cases hci : dictGet? (expCatIdx m order budgets totals) q.1 with
    | none =>
      rw [hci] at hl
      exact Option.noConfusion hl
    | some ci =>
      rw [hci] at hl
      dsimp only at hl
      by_cases h : 0 < q.2
      · rw [if_pos h] at hl
        obtain rfl := Option.some.inj hl
        have hbi' : dictGet? (indexDict
            ((graphBudgets budgets).map BudgetSummary.name)
            (m.length + order.length + 1)) p.1 = some bi := by
          rw [← budgetIdx]
          exact hbi
        have hci' : dictGet? (indexDict
            ((expenseCategories totals).map CategorySummary.name)
            (m.length + order.length + 1 + (graphBudgets budgets).length))
            q.1 = some ci := by
          rw [← expCatIdx]
          exact hci
        have h1 := dictGet?_indexDict_some hbi'
        have h2 := dictGet?_indexDict_some hci'
        rw [List.length_map] at h1
        dsimp only
        exact ⟨h1.1, h1.2, h2.1⟩
      · rw [if_neg h] at hl
        exact Option.noConfusion hl

/-- Claim C9: every emitted edge's source index is strictly below its
target index (the construction only links earlier layers to later ones),
so the emitted edge sequence describes an acyclic graph. -/
theorem C9_links_forward (txs : List IncomeTx) (order : List String)
    (budgets : List BudgetSummary) (totals : List CategorySummary)
    (net : ℚ) (fetch : String → Option (List BudgetTx))
    (h : ValidCatOrder (revenueToCategory txs) order) :
    ∀ l ∈ (buildSankey txs order budgets totals net fetch).links,
      l.source < l.target := by
  intro l hl
  simp only [buildSankey, List.mem_append] at hl
  rcases hl with ((((h1 | h1) | h1) | h1) | h1)
  · obtain ⟨ha, hb, _⟩ := revCatLinks_forward h.2.2 l h1
    omega
  · obtain ⟨ha, hb, hc⟩ := catHubLinks_forward l h1
    omega
  · obtain ⟨ha, hb, hc⟩ := hubBudgetLinks_forward l h1
    omega
  · obtain ⟨ha, hb, hc⟩ := budgetCatLinks_forward l h1
    omega
  · obtain ⟨hpos, rfl⟩ := mem_savingsLinks.mp h1
    dsimp only
    omega

/-- Claim C9 witness: `C9_links_forward` applied to a concrete run and the
concrete Employer→Salary edge it emits. -/
theorem C9_links_forward_witness :
    (SankeyLink.mk 0 1 1).source < (SankeyLink.mk 0 1 1).target :=
  C9_links_forward [salaryTx] [("Salary" : String)] [] [] 0 (fun _ => none)
    (by decide) (SankeyLink.mk 0 1 1)
    (by simp [buildSankey, revCatLinks, catHubLinks, hubBudgetLinks,
      budgetCatLinks, savingsLinks, revenueToCategory, addIncomeTx, dictBump,
      sourceOf, categoryOf, pyOr, dictGet?, dictInsert, dictKeys, indexDict,
      indexLoop, catTotal, buildBudgetCategoryMap, unionCats, salaryTx,
      graphBudgets, expenseCategories])

/-! ## Claim C2: income-category nodes -/

/-- Claim C2 (amended): exactly one IncomeCategory node is emitted per
distinct category observed among the income transactions (union across all
source accounts) — the node labels are precisely the admissible set
iteration order, which is duplicate-free and covers exactly the observed
categories, hence a permutation of the distinct categories in first-seen
order.  The first-seen ORDER itself is not guaranteed (the code iterates a
Python `set`); see the counterexample. -/
theorem C2_income_category_nodes (txs : List IncomeTx) (order : List String)
    (h : ValidCatOrder (revenueToCategory txs) order) :
    ((incomeCatNodes order).map SankeyNode.label) = order ∧
      List.Perm ((incomeCatNodes order).map SankeyNode.label)
        (firstSeen (txs.map categoryOf)) := by
  have hlabel : (incomeCatNodes order).map SankeyNode.label = order := by
    rw [incomeCatNodes, List.map_map]
    exact (List.map_congr_left (fun c _ => rfl)).trans (List.map_id order)
  refine ⟨hlabel, ?_⟩
  rw [hlabel]
  refine List.perm_of_nodup_nodup_toFinset_eq h.1 (nodup_firstSeen _) ?_
  ext c
  simp only [List.mem_toFinset, mem_firstSeen]
  constructor
  · intro hc
    exact mem_unionCats_revenueToCategory.mp (h.2.1 c hc)
  · intro hc
    exact h.2.2 c (mem_unionCats_revenueToCategory.mpr hc)

/-- Claim C2 witness: `C2_income_category_nodes` applied to a concrete
one-transaction run with its unique admissible order. -/
theorem C2_income_category_nodes_witness :
    ((incomeCatNodes [("Salary" : String)]).map SankeyNode.label) =
        [("Salary" : String)] ∧
      List.Perm ((incomeCatNodes [("Salary" : String)]).map SankeyNode.label)
        (firstSeen ([salaryTx].map categoryOf)) :=
  C2_income_category_nodes [salaryTx] [("Salary" : String)] (by decide)

/-- Income transaction observing category "B" first. -/
def txCatB : IncomeTx := ⟨1, some ("S"), some ("B")⟩

/-- Income transaction observing category "A" second. -/
def txCatA : IncomeTx := ⟨1, some ("S"), some ("A")⟩

/-- Claim C2 counterexample: with categories observed in order B then A,
the admissible set-iteration order ["A", "B"] (Python set iteration is
hash-ordered, so this order is a possible execution) yields income-category
nodes NOT in first-seen order: the graph's label sequence is
S, A, B, Total Income instead of the first-seen S, B, A, Total Income. -/
theorem C2_counterexample :
    ValidCatOrder (revenueToCategory [txCatB, txCatA])
        [("A" : String), ("B" : String)] ∧
      firstSeen ([txCatB, txCatA].map categoryOf) =
        [("B" : String), ("A" : String)] ∧
      (buildSankey [txCatB, txCatA] [("A" : String), ("B" : String)] [] [] 0
          (fun _ => none)).nodes.map SankeyNode.label =
        [("S" : String), ("A" : String), ("B" : String),
          ("Total Income" : String)] ∧
      (buildSankey [txCatB, txCatA] [("A" : String), ("B" : String)] [] [] 0
          (fun _ => none)).nodes.map SankeyNode.label ≠
        [("S" : String)] ++ firstSeen ([txCatB, txCatA].map categoryOf) ++
          [("Total Income" : String)] := by
  refine ⟨by decide, by decide, by decide, by decide⟩

/-! ## Claim C6: node count -/

theorem order_length_eq (txs : List IncomeTx) (order : List String)
    (h : ValidCatOrder (revenueToCategory txs) order) :
    order.length = (txs.map categoryOf).toFinset.card := by
  rw [← List.toFinset_card_of_nodup h.1]
  congr 1
  ext c
  simp only [List.mem_toFinset]
  constructor
  · intro hc
    exact mem_unionCats_revenueToCategory.mp (h.2.1 c hc)
  · intro hc
    exact h.2.2 c (mem_unionCats_revenueToCategory.mpr hc)

/-- Claim C6: the total node count is the number of distinct revenue
source accounts, plus the number of distinct income categories, plus 1
(the hub), plus the number of budget summaries with non-zero spent, plus
the number of category summaries with negative net total, plus 1 exactly
when the monthly net change is positive. -/
theorem C6_node_count (txs : List IncomeTx) (order : List String)
    (budgets : List BudgetSummary) (totals : List CategorySummary)
    (net : ℚ) (fetch : String → Option (List BudgetTx))
    (h : ValidCatOrder (revenueToCategory txs) order) :
    (buildSankey txs order budgets totals net fetch).nodes.length =
      (txs.map sourceOf).toFinset.card + (txs.map categoryOf).toFinset.card
        + 1 + (budgets.filter (fun b => decide (b.spentQ ≠ 0))).length
        + (totals.filter (fun c => decide (c.total < 0))).length
        + (if 0 < net then 1 else 0) := by
  have hs : (savingsNodes budgets net).length = if 0 < net then 1 else 0 := by
    by_cases hn : 0 < net
    · rw [savingsNodes, if_pos hn, if_pos hn]
      rfl
    · rw [savingsNodes, if_neg hn, if_neg hn]
      rfl
  simp only [buildSankey, List.length_append, revenueNodes, incomeCatNodes,
    budgetNodes, expCatNodes, List.length_map, List.length_singleton, hs]
  rw [length_revenueToCategory, order_length_eq txs order h,
    graphBudgets, expenseCategories]

/-- Claim C6 witness: `C6_node_count` applied to a concrete run. -/
theorem C6_node_count_witness :
    (buildSankey [salaryTx] [("Salary" : String)] [] [] 0
        (fun _ => none)).nodes.length =
      ([salaryTx].map sourceOf).toFinset.card +
        ([salaryTx].map categoryOf).toFinset.card + 1 +
        (([] : List BudgetSummary).filter
          (fun b => decide (b.spentQ ≠ 0))).length +
        (([] : List CategorySummary).filter
          (fun c => decide (c.total < 0))).length +
        (if (0 : ℚ) < 0 then 1 else 0) :=
  C6_node_count [salaryTx] [("Salary" : String)] [] [] 0 (fun _ => none)
    (by decide)

/-! ## Claim C7: the savings node and edge -/

theorem append_ne_netsavings {p : String} (s : String) {c : Char}
    {cs : List Char} (hp : p.data = c :: cs) (hc : c ≠ 'n') :
    p ++ s ≠ ("net_savings" : String) := by
  intro h
  have hd : p.data ++ s.data = ("net_savings" : String).data :=
    congrArg String.data h
  rw [hp, List.cons_append] at hd
  have hn : ("net_savings" : String).data =
      'n' :: ("et_savings" : String).data := rfl
  rw [hn] at hd
  exact hc (List.cons.inj hd).1

theorem revenueNodes_id_ne {m : RevMap} :
    ∀ n ∈ revenueNodes m, n.id ≠ ("net_savings" : String) := by
  intro n hn
  simp only [revenueNodes, List.mem_map] at hn
  obtain ⟨p, hp, rfl⟩ := hn
  exact append_ne_netsavings p.1 rfl (by decide)

theorem incomeCatNodes_id_ne {order : List String} :
    ∀ n ∈ incomeCatNodes order, n.id ≠ ("net_savings" : String) := by
  intro n hn
  simp only [incomeCatNodes, List.mem_map] at hn
  obtain ⟨c, hc, rfl⟩ := hn
  exact append_ne_netsavings c rfl (by decide)

theorem budgetNodes_id_ne {budgets : List BudgetSummary} :
    ∀ n ∈ budgetNodes budgets, n.id ≠ ("net_savings" : String) := by
  intro n hn
  simp only [budgetNodes, List.mem_map] at hn
  obtain ⟨b, hb, rfl⟩ := hn
  exact append_ne_netsavings b.name rfl (by decide)

theorem expCatNodes_id_ne {totals : List CategorySummary} :
    ∀ n ∈ expCatNodes totals, n.id ≠ ("net_savings" : String) := by
  intro n hn
  simp only [expCatNodes, List.mem_map] at hn
  obtain ⟨c, hc, rfl⟩ := hn
  exact append_ne_netsavings c.name rfl (by decide)

/-- Claim C7: a Savings node (id "net_savings") is emitted iff the net
monthly change is positive; when emitted, its label is "Net Savings"
exactly when some budget summary's (ASCII-lower-cased) name is "savings"
— consulting budget names only — and an IncomeHub→Savings link with weight
equal to the net change is emitted. -/
theorem C7_savings (txs : List IncomeTx) (order : List String)
    (budgets : List BudgetSummary) (totals : List CategorySummary)
    (net : ℚ) (fetch : String → Option (List BudgetTx)) :
    ((∃ n ∈ (buildSankey txs order budgets totals net fetch).nodes,
        n.id = ("net_savings" : String)) ↔ 0 < net) ∧
      (0 < net →
        SankeyNode.mk ("net_savings")
            (if ∃ b ∈ budgets, pyLower b.name = ("savings" : String)
              then ("Net Savings" : String) else ("Savings" : String)) ∈
          (buildSankey txs order budgets totals net fetch).nodes ∧
        SankeyLink.mk ((revenueToCategory txs).length + order.length)
            ((revenueToCategory txs).length + order.length + 1 +
              (graphBudgets budgets).length +
              (expenseCategories totals).length) net ∈
          (buildSankey txs order budgets totals net fetch).links) := by
  have hlabel : savingsLabel budgets =
      (if ∃ b ∈ budgets, pyLower b.name = ("savings" : String)
        then ("Net Savings" : String) else ("Savings" : String)) := by
    rw [savingsLabel]
    by_cases hb : ∃ b ∈ budgets, pyLower b.name = ("savings" : String)
    · obtain ⟨b, hbm, hbe⟩ := hb
      rw [if_pos (List.any_eq_true.mpr ⟨b, hbm, by simp [hbe]⟩),
        if_pos ⟨b, hbm, hbe⟩]
    · rw [if_neg ?_, if_neg hb]
      intro hany
      obtain ⟨b, hbm, hbe⟩ := List.any_eq_true.mp hany
      exact hb ⟨b, hbm, by simpa using hbe⟩
  constructor
  · constructor
    · rintro ⟨n, hn, hid⟩
      simp only [buildSankey, List.mem_append] at hn
      rcases hn with (((((h1 | h1) | h1) | h1) | h1) | h1)
      · exact absurd hid (revenueNodes_id_ne n h1)
      · exact absurd hid (incomeCatNodes_id_ne n h1)
      · obtain rfl := List.mem_singleton.mp h1
        exact absurd hid (by decide)
      · exact absurd hid (budgetNodes_id_ne n h1)
      · exact absurd hid (expCatNodes_id_ne n h1)
      · by_cases hn0 : 0 < net
        · exact hn0
        · rw [savingsNodes, if_neg hn0] at h1
          simp at h1
    · intro hn0
      refine ⟨⟨"net_savings", savingsLabel budgets⟩, ?_, rfl⟩
      simp only [buildSankey, List.mem_append]
      refine Or.inr ?_
      rw [savingsNodes, if_pos hn0]
      exact List.mem_singleton.mpr rfl
  · intro hn0
    constructor
    · rw [← hlabel]
      simp only [buildSankey, List.mem_append]
      refine Or.inr ?_
      rw [savingsNodes, if_pos hn0]
      exact List.mem_singleton.mpr rfl
    · simp only [buildSankey, List.mem_append]
      refine Or.inr ?_
      exact mem_savingsLinks.mpr ⟨hn0, rfl⟩

/-- A budget summary named "SAVINGS" (upper case) with non-zero spending. -/
def savingsBudget : BudgetSummary :=
  ⟨"9", "SAVINGS", RawAmount.num 100, RawAmount.num (-10), 90⟩

/-- Claim C7 witness: `C7_savings` with positive net change 1 and a budget
named "SAVINGS" — the savings node (labeled via the collision check) and
the hub→savings link of weight 1 are both emitted. -/
theorem C7_savings_witness :
    SankeyNode.mk ("net_savings")
        (if ∃ b ∈ [savingsBudget], pyLower b.name = ("savings" : String)
          then ("Net Savings" : String) else ("Savings" : String)) ∈
      (buildSankey [] [] [savingsBudget] [] 1 (fun _ => none)).nodes ∧
    SankeyLink.mk ((revenueToCategory ([] : List IncomeTx)).length +
          ([] : List String).length)
        ((revenueToCategory ([] : List IncomeTx)).length +
          ([] : List String).length + 1 +
          (graphBudgets [savingsBudget]).length +
          (expenseCategories ([] : List CategorySummary)).length) 1 ∈
      (buildSankey [] [] [savingsBudget] [] 1 (fun _ => none)).links :=
  (C7_savings [] [] [savingsBudget] [] 1 (fun _ => none)).2 (by norm_num)

/-! ## Claim C8: budget→category edges and per-budget fault tolerance -/

/-- Claim C8: (a) a budget whose transaction fetch fails contributes
nothing — the accumulated budget→category map over a budget list
containing it equals the map over the list without it, so one failure
never aborts the construction; (b) for every accumulated
(budget, category, amount) entry, a Budget→ExpenseCategory link carrying
exactly that amount between the two dict-assigned indices is emitted iff
the budget has a graph node, the category is a known expense-category
node, and the amount is positive. -/
theorem C8_budget_cat_edges :
    (∀ (budgets₁ budgets₂ : List BudgetSummary) (b : BudgetSummary)
        (fetch : String → Option (List BudgetTx)), fetch b.id = none →
        buildBudgetCategoryMap (budgets₁ ++ b :: budgets₂) fetch =
          buildBudgetCategoryMap (budgets₁ ++ budgets₂) fetch) ∧
      (∀ (m : RevMap) (order : List String) (budgets : List BudgetSummary)
        (totals : List CategorySummary)
        (fetch : String → Option (List BudgetTx))
        (p : String × CatAmounts) (q : String × ℚ),
        p ∈ buildBudgetCategoryMap budgets fetch → q ∈ p.2 →
        ((∃ bi ci, dictGet? (budgetIdx m order budgets) p.1 = some bi ∧
            dictGet? (expCatIdx m order budgets totals) q.1 = some ci ∧
            SankeyLink.mk bi ci q.2 ∈
              budgetCatLinks m order budgets totals fetch) ↔
          (p.1 ∈ (graphBudgets budgets).map BudgetSummary.name ∧
            q.1 ∈ (expenseCategories totals).map CategorySummary.name ∧
            0 < q.2))) := by
  constructor
  · intro l1 l2 b fetch hf
    rw [buildBudgetCategoryMap, buildBudgetCategoryMap, List.foldl_append,
      List.foldl_append, List.foldl_cons]
    simp only [hf]
  · intro m order budgets totals fetch p q hp hq
    constructor
    · rintro ⟨bi, ci, hbi, hci, hmem⟩
      refine ⟨?_, ?_, ?_⟩
      · by_contra hc
        have hnone : dictGet? (budgetIdx m order budgets) p.1 = none := by
          rw [budgetIdx]
          exact dictGet?_indexDict_eq_none.mpr hc
        rw [hnone] at hbi
        exact Option.noConfusion hbi
      · by_contra hc
        have hnone : dictGet? (expCatIdx m order budgets totals) q.1 = none := by
          rw [expCatIdx]
          exact dictGet?_indexDict_eq_none.mpr hc
        rw [hnone] at hci
        exact Option.noConfusion hci
      · simpa using budgetCatLinks_value_pos (SankeyLink.mk bi ci q.2) hmem
    · rintro ⟨hb, hc, hpos⟩
      obtain ⟨bi, hbi, _, _⟩ :=
        dictGet?_indexDict_mem (s := m.length + order.length + 1) hb
      obtain ⟨ci, hci, _, _⟩ := dictGet?_indexDict_mem
        (s := m.length + order.length + 1 + (graphBudgets budgets).length) hc
      have hbi' : dictGet? (budgetIdx m order budgets) p.1 = some bi := by
        rw [budgetIdx]
        exact hbi
      have hci' : dictGet? (expCatIdx m order budgets totals) q.1 = some ci := by
        rw [expCatIdx]
        exact hci
      refine ⟨bi, ci, hbi', hci', ?_⟩
      simp only [budgetCatLinks, List.mem_flatMap]
      refine ⟨p, hp, ?_⟩
      rw [hbi']
      simp only [List.mem_filterMap]
      refine ⟨q, hq, ?_⟩
      rw [hci']
      dsimp only
      rw [if_pos hpos]

/-- Claim C8 witness: `C8_budget_cat_edges` applied concretely — a budget
whose fetch fails (`none`) contributes nothing to the map. -/
theorem C8_budget_cat_edges_witness :
    buildBudgetCategoryMap ([] ++ savingsBudget :: []) (fun _ => none) =
      buildBudgetCategoryMap ([] ++ []) (fun _ => none) :=
  C8_budget_cat_edges.1 [] [] savingsBudget (fun _ => none) rfl

end MonthlyReport
